import Mathlib

/-!
Verification development for the SunRise repository.

The repository ships the class declarations (src/SunRise.h, and a header
variant in src/unnamed/part_000) together with example callers, but the
implementation bodies of `calculate`, `sun`, `interpolate`, `julianDate`,
`localSiderealTime` and `testSunRiseSet` are not part of the sources.
Consequently the algorithmic definitions below are modelled from the
specification (sections 2, 4.1, 4.5, 4.6 of spec.md): the hourly window
scan is embedded parametrically in the altitude sampler, since the solar
trigonometry itself is only described at the level of standard formulas.

Conventions of the embedding:
- times are Unix seconds as integers on input, rationals for refined
  event instants;
- `alt k` stands for the quantity (altitude minus horizon constant) at
  the hourly sample boundary `k` hours away from the query time, so its
  sign is exactly the above/below-horizon test of the spec;
- `refine k` stands for the zero-crossing fraction produced by the
  quadratic interpolation refiner for the hour interval `[k, k+1)`;
- `az k` stands for the azimuth interpolated at that crossing.
-/

namespace SunRiseSpec

/-- Size of the event search window in hours, from the SR_WINDOW macro of
src/SunRise.h (default 48, even). -/
def SR_WINDOW : Nat := 48

/-- Modelled from the spec: julianDate converts a Unix timestamp to the
real-valued, fractional number of days elapsed since the J2000.0 epoch
(January 1, 2000, 12:00 UTC, which is Unix second 946728000); the
implementation body is absent from src/. -/
def julianDate (t : Int) : ℚ := ((t : ℚ) - 946728000) / 86400

/-- Result record of the spec model of `SunRise::calculate`: the public
result fields of the SunRise class of src/SunRise.h. Event instants are
kept as rationals since the refiner yields sub-hour fractions. -/
structure SunRiseState where
  queryTime : Int
  riseTime : ℚ
  setTime : ℚ
  riseAz : ℚ
  setAz : ℚ
  hasRise : Bool
  hasSet : Bool
  isVisible : Bool
  deriving Repr, DecidableEq

/-- A detected horizon-crossing candidate: its kind (rise or set), its
refined instant in Unix seconds, and the interpolated azimuth. -/
structure Event where
  isRise : Bool
  time : ℚ
  az : ℚ
  deriving Repr, DecidableEq

/-- Hour indices of the scan window: the 48 hour intervals `[k, k+1)` for
k from -24 to 23, centered on the query time (spec section 4.5). -/
def hourIndices : List Int := (List.range SR_WINDOW).map (fun i => ((i : ℕ) : Int) - 24)

/-- Hourly sample boundaries of the window: the 49 offsets -24, ..., 24
in hours from the query time; the solar position is evaluated exactly
once at each of these (spec sections 4.5 and 5). -/
def samplePoints : List Int :=
  (List.range (SR_WINDOW + 1)).map (fun i => ((i : ℕ) : Int) - 24)

/-- Day offsets at which the solar position model is consulted during one
invocation: the julian day offset of each hourly sample boundary. -/
def sunEvalOffsets (t : Int) : List ℚ :=
  (List.range (SR_WINDOW + 1)).map (fun i => julianDate t + (((i : ℕ) : ℚ) - 24) / 24)

/-- Refined instant of a crossing detected in hour interval `[k, k+1)`:
the query time plus `k` whole hours plus the interpolated fraction of an
hour (spec section 4.5). -/
def eventTime (t : Int) (k : Int) (p : ℚ) : ℚ := (t : ℚ) + ((k : ℚ) + p) * 3600

/-- Modelled from the spec: sign-change detection for one hour interval of
the scan (spec section 4.5, with the zero tie-break of section 9): the
altitude sign going zero-or-negative to positive is a rise, positive to
zero-or-negative a set; otherwise no event. The bodies of
`SunRise::testSunRiseSet` are absent from src/. -/
def eventAt (alt refine az : Int → ℚ) (t : Int) (k : Int) : Option Event :=
  if alt k ≤ 0 ∧ 0 < alt (k + 1) then
    some ⟨true, eventTime t k (refine k), az k⟩
  else if 0 < alt k ∧ alt (k + 1) ≤ 0 then
    some ⟨false, eventTime t k (refine k), az k⟩
  else
    none

/-- All crossing candidates detected by the hourly window scan, in scan
order. -/
def eventsOf (alt refine az : Int → ℚ) (t : Int) : List Event :=
  hourIndices.filterMap (eventAt alt refine az t)

/-- Best-candidate-so-far update: keep the incumbent unless the new
candidate is strictly closer to the query time (spec section 4.5:
overwrite further ones). -/
def closer (q : ℚ) (e : Event) (old : Option Event) : Option Event :=
  match old with
  | none => some e
  | some o => if |q - e.time| < |q - o.time| then some e else some o

/-- Fold a candidate list through one best-candidate slot, considering
only the candidates selected by `keep`. -/
def slotFold (q : ℚ) (keep : Event → Bool) (init : Option Event) (l : List Event) :
    Option Event :=
  l.foldl (fun acc e => if keep e then closer q e acc else acc) init

/-- Selector for one of the four independent slots: candidates of kind
`isR` (true for rise) on the `before` side of the query time (events at
the query instant count as after). -/
def keepFor (isR before : Bool) (q : ℚ) (e : Event) : Bool :=
  (e.isRise == isR) && (if before then decide (e.time < q) else decide (q ≤ e.time))

/-- The four independent best-candidate-so-far slots of the scan (spec
section 4.5): nearest rise before, nearest rise after, nearest set
before, nearest set after the query time. -/
structure Slots where
  riseBefore : Option Event
  riseAfter : Option Event
  setBefore : Option Event
  setAfter : Option Event
  deriving Repr, DecidableEq

/-- Modelled from the spec: the event bookkeeping of the window scan,
tracking the nearest event before and after the query time separately for
rise and for set in four independent slots (spec section 4.5); the body
of `SunRise::calculate` is absent from src/. -/
def scanSlots (evs : List Event) (q : ℚ) : Slots :=
  ⟨slotFold q (keepFor true true q) none evs,
   slotFold q (keepFor true false q) none evs,
   slotFold q (keepFor false true q) none evs,
   slotFold q (keepFor false false q) none evs⟩

/-- Slot selector by kind and side, mirroring `keepFor`. -/
def slotOf (s : Slots) (isR before : Bool) : Option Event :=
  match isR, before with
  | true, true => s.riseBefore
  | true, false => s.riseAfter
  | false, true => s.setBefore
  | false, false => s.setAfter

/-- Of the two per-side slots of one kind, report the one closer to the
query time (the single riseTime or setTime field of the result). -/
def pickNearer (q : ℚ) (b a : Option Event) : Option Event :=
  match b, a with
  | none, x => x
  | some eb, none => some eb
  | some eb, some ea => if |q - ea.time| < |q - eb.time| then some ea else some eb

/-- Time of an optional event, defaulting to 0 when absent (the fields
keep their reset value when no event was found). -/
def timeOrZero (e : Option Event) : ℚ :=
  match e with
  | none => 0
  | some ev => ev.time

/-- Azimuth of an optional event, defaulting to 0 when absent. -/
def azOrZero (e : Option Event) : ℚ :=
  match e with
  | none => 0
  | some ev => ev.az

/-- Modelled from the spec: `SunRise::calculate` (body absent from src/).
It resets the result state, scans the 48 hour intervals of the window for
altitude sign changes, tracks the four nearest-candidate slots, reports
per kind the candidate closest to the query time, and sets isVisible from
the altitude sign evaluated directly at the query time (spec section
4.5). The previous state `prev` is taken and discarded, mirroring the
initClass reset of src/SunRise.h. -/
def calculate (_prev : SunRiseState) (alt refine az : Int → ℚ) (t : Int) : SunRiseState :=
  let evs := eventsOf alt refine az t
  let s := scanSlots evs (t : ℚ)
  let r := pickNearer (t : ℚ) s.riseBefore s.riseAfter
  let w := pickNearer (t : ℚ) s.setBefore s.setAfter
  { queryTime := t
    riseTime := timeOrZero r
    setTime := timeOrZero w
    riseAz := azOrZero r
    setAz := azOrZero w
    hasRise := r.isSome
    hasSet := w.isSome
    isVisible := decide (0 < alt 0) }

/-- Reported event instant of one kind: riseTime for rises, setTime for
sets. -/
def reportedTime (st : SunRiseState) (isR : Bool) : ℚ :=
  if isR then st.riseTime else st.setTime

/-- Reported found-flag of one kind: hasRise for rises, hasSet for sets. -/
def reportedHas (st : SunRiseState) (isR : Bool) : Bool :=
  if isR then st.hasRise else st.hasSet

/-- Modelled from the spec: the parabola fitted by the 3-point quadratic
interpolation of `SunRise::interpolate` (body absent from src/) through
the altitude samples f0, f1, f2 at the start, middle and end of an hour,
evaluated at fraction p of the hour (spec section 4.6). -/
def fitAt (f0 f1 f2 : ℚ) (p : ℝ) : ℝ :=
  (f0 : ℝ) + ((4 * f1 - 3 * f0 - f2 : ℚ) : ℝ) * p +
    ((2 * f0 - 4 * f1 + 2 * f2 : ℚ) : ℝ) * p ^ 2

/-- Modelled from the spec: p is the zero-crossing fraction selected by
the interpolation refiner, namely a root of the fitted parabola nearest
the sample interval [0, 1] (spec section 4.6). -/
def isCrossingFraction (f0 f1 f2 : ℚ) (p : ℝ) : Prop :=
  fitAt f0 f1 f2 p = 0 ∧
    ∀ r : ℝ, fitAt f0 f1 f2 r = 0 →
      Metric.infDist p (Set.Icc 0 1) ≤ Metric.infDist r (Set.Icc 0 1)

/-- Concrete altitude profile used to exercise the scan: below horizon up
to hour -20, above from -19 to -10, below again from -9 to -5, above
afterwards; it yields two rises and one set, all before the query time. -/
def altW (k : Int) : ℚ :=
  if k ≤ -20 then -1
  else if k ≤ -10 then 1
  else if k ≤ -5 then -1
  else 1

/-- Concrete everywhere-below-horizon altitude profile (polar night). -/
def altNeg (_k : Int) : ℚ := -1

/-- Concrete altitude profile with a single rise (hour -5, before the
query time) and a single set (hour 10, after the query time). -/
def altS (k : Int) : ℚ :=
  if k ≤ -5 then -1
  else if k ≤ 10 then 1
  else -1

/-- Copy of altS perturbed only outside the sample window (hours 25 and
beyond), for the evaluation-count extensionality witness. -/
def altSOut (k : Int) : ℚ :=
  if 25 ≤ k then 1 else altS k

/-- Concrete refiner returning the half-hour fraction. -/
def refHalf (_k : Int) : ℚ := 1 / 2

/-- Concrete azimuth sampler. -/
def azW (k : Int) : ℚ := (k : ℚ)

/-- A concrete prior state used when invoking the modelled calculate. -/
def st0 : SunRiseState :=
  { queryTime := 0
    riseTime := 0
    setTime := 0
    riseAz := 0
    setAz := 0
    hasRise := false
    hasSet := false
    isVisible := false }

/-- Result field record of the header variant in src/unnamed/part_000,
whose class SunRise declares default member initializers on every public
result field. Times are time_t, azimuths floating, flags boolean; we
embed them as Int, ℚ and Bool. -/
structure SunRiseV0 where
  queryTime : Int
  riseTime : Int
  setTime : Int
  riseAz : ℚ
  setAz : ℚ
  hasRise : Bool
  hasSet : Bool
  isVisible : Bool
  deriving Repr, DecidableEq

/-- The default member initializers of class SunRise in
src/unnamed/part_000 lines 22 to 29: all times and azimuths 0, all flags
false. -/
def defaultV0 : SunRiseV0 :=
  { queryTime := 0
    riseTime := 0
    setTime := 0
    riseAz := 0
    setAz := 0
    hasRise := false
    hasSet := false
    isVisible := false }

/-! Helper lemmas about the best-candidate bookkeeping. -/

theorem closer_ne_none (q : ℚ) (e : Event) (o : Option Event) : closer q e o ≠ none := by
  cases o with
  | none => simp [closer]
  | some o' =>
    simp only [closer]
    split <;> simp

theorem closer_mem (q : ℚ) (e : Event) (o : Option Event) (b : Event)
    (hb : closer q e o = some b) : b = e ∨ o = some b := by
  cases o with
  | none =>
    simp only [closer, Option.some.injEq] at hb
    exact Or.inl hb.symm
  | some i =>
    simp only [closer] at hb
    split at hb
    · exact Or.inl (Option.some.inj hb).symm
    · exact Or.inr hb

theorem closer_min (q : ℚ) (e : Event) (o : Option Event) (b : Event)
    (hb : closer q e o = some b) :
    |q - b.time| ≤ |q - e.time| ∧ ∀ i, o = some i → |q - b.time| ≤ |q - i.time| := by
  cases o with
  | none =>
    simp only [closer, Option.some.injEq] at hb
    subst hb
    refine ⟨le_refl _, ?_⟩
    intro i hi
    exact absurd hi (by simp)
  | some i =>
    simp only [closer] at hb
    split at hb
    · obtain rfl : e = b := Option.some.inj hb
      constructor
      · exact le_refl _
      · intro i' hi'
        obtain rfl : i = i' := Option.some.inj hi'
        exact le_of_lt (by assumption)
    · obtain rfl : i = b := Option.some.inj hb
      constructor
      · exact le_of_not_lt (by assumption)
      · intro i' hi'
        rw [← Option.some.inj hi']

theorem slotFold_nil (q : ℚ) (keep : Event → Bool) (init : Option Event) :
    slotFold q keep init [] = init := rfl

theorem slotFold_cons (q : ℚ) (keep : Event → Bool) (init : Option Event)
    (e : Event) (l : List Event) :
    slotFold q keep init (e :: l) =
      slotFold q keep (if keep e then closer q e init else init) l := rfl

theorem slotFold_none (q : ℚ) (keep : Event → Bool) (l : List Event) :
    ∀ init, slotFold q keep init l = none → init = none ∧ ∀ e ∈ l, keep e = false := by
  induction l with
  | nil =>
    intro init h
    exact ⟨h, by intro e he; exact absurd he (List.not_mem_nil e)⟩
  | cons e tl ih =>
    intro init h
    rw [slotFold_cons] at h
    obtain ⟨h1, h2⟩ := ih _ h
    by_cases hk : keep e = true
    · rw [if_pos hk] at h1
      exact absurd h1 (closer_ne_none q e init)
    · rw [if_neg hk] at h1
      refine ⟨h1, ?_⟩
      intro e' he'
      rcases List.mem_cons.mp he' with h' | h'
      · subst h'
        exact Bool.eq_false_iff.mpr hk
      · exact h2 e' h'

theorem slotFold_some (q : ℚ) (keep : Event → Bool) (l : List Event) :
    ∀ init b, slotFold q keep init l = some b →
      ((b ∈ l ∧ keep b = true) ∨ init = some b) ∧
      (∀ e ∈ l, keep e = true → |q - b.time| ≤ |q - e.time|) ∧
      (∀ i, init = some i → |q - b.time| ≤ |q - i.time|) := by
  induction l with
  | nil =>
    intro init b h
    have hb : init = some b := h
    refine ⟨Or.inr hb, ?_, ?_⟩
    · intro e he
      exact absurd he (List.not_mem_nil e)
    · intro i hi
      rw [hb] at hi
      rw [Option.some.inj hi]
  | cons e tl ih =>
    intro init b h
    rw [slotFold_cons] at h
    obtain ⟨Hmem, Hmin, Hinit⟩ := ih _ b h
    by_cases hk : keep e = true
    · rw [if_pos hk] at Hmem Hinit
      obtain ⟨j, hj⟩ : ∃ j, closer q e init = some j := by
        cases hc : closer q e init with
        | none => exact absurd hc (closer_ne_none q e init)
        | some j => exact ⟨j, rfl⟩
      have hjmin := closer_min q e init j hj
      have hbj : |q - b.time| ≤ |q - j.time| := Hinit j hj
      refine ⟨?_, ?_, ?_⟩
      · rcases Hmem with ⟨hbtl, hkb⟩ | hin
        · exact Or.inl ⟨List.mem_cons_of_mem e hbtl, hkb⟩
        · rcases closer_mem q e init b hin with hbe | hbo
          · exact Or.inl ⟨by rw [hbe]; exact List.mem_cons_self e tl, by rw [hbe]; exact hk⟩
          · exact Or.inr hbo
      · intro e' he' hke'
        rcases List.mem_cons.mp he' with h' | h'
        · subst h'
          exact le_trans hbj hjmin.1
        · exact Hmin e' h' hke'
      · intro i hi
        exact le_trans hbj (hjmin.2 i hi)
    · rw [if_neg hk] at Hmem Hinit
      refine ⟨?_, ?_, ?_⟩
      · rcases Hmem with ⟨hbtl, hkb⟩ | hin
        · exact Or.inl ⟨List.mem_cons_of_mem e hbtl, hkb⟩
        · exact Or.inr hin
      · intro e' he' hke'
        rcases List.mem_cons.mp he' with h' | h'
        · subst h'
          exact absurd hke' hk
        · exact Hmin e' h' hke'
      · exact Hinit

theorem slotOf_scanSlots (evs : List Event) (q : ℚ) (isR before : Bool) :
    slotOf (scanSlots evs q) isR before = slotFold q (keepFor isR before q) none evs := by
  cases isR <;> cases before <;> rfl

theorem pickNearer_spec (q : ℚ) (A B : Option Event) (b : Event)
    (h : pickNearer q A B = some b) :
    (A = some b ∨ B = some b) ∧
    (∀ a, A = some a → |q - b.time| ≤ |q - a.time|) ∧
    (∀ a, B = some a → |q - b.time| ≤ |q - a.time|) := by
  cases A with
  | none =>
    cases B with
    | none => exact absurd h (by simp [pickNearer])
    | some ea =>
      simp only [pickNearer] at h
      obtain rfl : ea = b := Option.some.inj h
      refine ⟨Or.inr rfl, ?_, ?_⟩
      · intro a ha
        exact absurd ha (by simp)
      · intro a ha
        rw [← Option.some.inj ha]
  | some eb =>
    cases B with
    | none =>
      simp only [pickNearer] at h
      obtain rfl : eb = b := Option.some.inj h
      refine ⟨Or.inl rfl, ?_, ?_⟩
      · intro a ha
        rw [← Option.some.inj ha]
      · intro a ha
        exact absurd ha (by simp)
    | some ea =>
      simp only [pickNearer] at h
      split at h
      · obtain rfl : ea = b := Option.some.inj h
        refine ⟨Or.inr rfl, ?_, ?_⟩
        · intro a ha
          rw [← Option.some.inj ha]
          exact le_of_lt (by assumption)
        · intro a ha
          rw [← Option.some.inj ha]
      · obtain rfl : eb = b := Option.some.inj h
        refine ⟨Or.inl rfl, ?_, ?_⟩
        · intro a ha
          rw [← Option.some.inj ha]
        · intro a ha
          rw [← Option.some.inj ha]
          exact le_of_not_lt (by assumption)

theorem pickNearer_none_of_none (q : ℚ) :
    pickNearer q none none = none := rfl

/-! Helper lemmas about the detected-candidate list. -/

theorem mem_eventsOf (alt refine az : Int → ℚ) (t : Int) (e : Event) :
    e ∈ eventsOf alt refine az t ↔
      ∃ k, k ∈ hourIndices ∧ eventAt alt refine az t k = some e := by
  simp [eventsOf, List.mem_filterMap]

theorem eventAt_time (alt refine az : Int → ℚ) (t k : Int) (e : Event)
    (h : eventAt alt refine az t k = some e) :
    e.time = eventTime t k (refine k) := by
  simp only [eventAt] at h
  split at h
  · rw [← Option.some.inj h]
  · split at h
    · rw [← Option.some.inj h]
    · exact Option.noConfusion h

theorem hourIndices_bounds : ∀ k ∈ hourIndices, -24 ≤ k ∧ k ≤ 23 := by decide

theorem hourIndices_sub_samplePoints :
    ∀ k ∈ hourIndices, k ∈ samplePoints ∧ k + 1 ∈ samplePoints := by decide

theorem zero_mem_samplePoints : (0 : Int) ∈ samplePoints := by decide

theorem eventsOf_time_bounds (alt refine az : Int → ℚ) (t : Int)
    (hr : ∀ k, 0 ≤ refine k ∧ refine k < 1) :
    ∀ e ∈ eventsOf alt refine az t,
      (t : ℚ) - 86400 ≤ e.time ∧ e.time < (t : ℚ) + 86400 := by
  intro e he
  obtain ⟨k, hk, hev⟩ := (mem_eventsOf alt refine az t e).mp he
  have hkb := hourIndices_bounds k hk
  have hkq : (-24 : ℚ) ≤ (k : ℚ) ∧ (k : ℚ) ≤ 23 :=
    ⟨by exact_mod_cast hkb.1, by exact_mod_cast hkb.2⟩
  rw [eventAt_time alt refine az t k e hev]
  unfold eventTime
  obtain ⟨h0, h1⟩ := hr k
  constructor <;> nlinarith [hkq.1, hkq.2, h0, h1]

theorem eventAt_congr (alt refine az alt2 refine2 az2 : Int → ℚ) (t k : Int)
    (ha : alt k = alt2 k) (ha1 : alt (k + 1) = alt2 (k + 1))
    (hrf : refine k = refine2 k) (haz : az k = az2 k) :
    eventAt alt refine az t k = eventAt alt2 refine2 az2 t k := by
  simp only [eventAt, ha, ha1, hrf, haz]

theorem eventsOf_congr (alt refine az alt2 refine2 az2 : Int → ℚ) (t : Int)
    (ha : ∀ k ∈ samplePoints, alt k = alt2 k)
    (hrf : ∀ k ∈ hourIndices, refine k = refine2 k ∧ az k = az2 k) :
    eventsOf alt refine az t = eventsOf alt2 refine2 az2 t := by
  unfold eventsOf
  apply List.filterMap_congr
  intro k hk
  obtain ⟨hs, hs1⟩ := hourIndices_sub_samplePoints k hk
  exact eventAt_congr alt refine az alt2 refine2 az2 t k
    (ha k hs) (ha (k + 1) hs1) (hrf k hk).1 (hrf k hk).2

/-! Projection lemmas for the modelled calculate. -/

theorem calculate_hasRise (prev : SunRiseState) (alt refine az : Int → ℚ) (t : Int) :
    (calculate prev alt refine az t).hasRise =
      (pickNearer (t : ℚ)
        (slotFold (t : ℚ) (keepFor true true (t : ℚ)) none (eventsOf alt refine az t))
        (slotFold (t : ℚ) (keepFor true false (t : ℚ)) none (eventsOf alt refine az t))).isSome := rfl

theorem calculate_hasSet (prev : SunRiseState) (alt refine az : Int → ℚ) (t : Int) :
    (calculate prev alt refine az t).hasSet =
      (pickNearer (t : ℚ)
        (slotFold (t : ℚ) (keepFor false true (t : ℚ)) none (eventsOf alt refine az t))
        (slotFold (t : ℚ) (keepFor false false (t : ℚ)) none (eventsOf alt refine az t))).isSome := rfl

theorem calculate_riseTime (prev : SunRiseState) (alt refine az : Int → ℚ) (t : Int) :
    (calculate prev alt refine az t).riseTime =
      timeOrZero (pickNearer (t : ℚ)
        (slotFold (t : ℚ) (keepFor true true (t : ℚ)) none (eventsOf alt refine az t))
        (slotFold (t : ℚ) (keepFor true false (t : ℚ)) none (eventsOf alt refine az t))) := rfl

theorem calculate_setTime (prev : SunRiseState) (alt refine az : Int → ℚ) (t : Int) :
    (calculate prev alt refine az t).setTime =
      timeOrZero (pickNearer (t : ℚ)
        (slotFold (t : ℚ) (keepFor false true (t : ℚ)) none (eventsOf alt refine az t))
        (slotFold (t : ℚ) (keepFor false false (t : ℚ)) none (eventsOf alt refine az t))) := rfl

theorem calculate_reported (prev : SunRiseState) (alt refine az : Int → ℚ) (t : Int)
    (isR : Bool) :
    reportedHas (calculate prev alt refine az t) isR =
      (pickNearer (t : ℚ)
        (slotFold (t : ℚ) (keepFor isR true (t : ℚ)) none (eventsOf alt refine az t))
        (slotFold (t : ℚ) (keepFor isR false (t : ℚ)) none (eventsOf alt refine az t))).isSome ∧
    reportedTime (calculate prev alt refine az t) isR =
      timeOrZero (pickNearer (t : ℚ)
        (slotFold (t : ℚ) (keepFor isR true (t : ℚ)) none (eventsOf alt refine az t))
        (slotFold (t : ℚ) (keepFor isR false (t : ℚ)) none (eventsOf alt refine az t))) := by
  cases isR <;> exact ⟨rfl, rfl⟩

theorem keepFor_elim (isR before : Bool) (q : ℚ) (e : Event)
    (h : keepFor isR before q e = true) :
    e.isRise = isR ∧ (before = true → e.time < q) ∧ (before = false → q ≤ e.time) := by
  unfold keepFor at h
  rw [Bool.and_eq_true] at h
  refine ⟨eq_of_beq h.1, ?_, ?_⟩
  · intro hb
    subst hb
    simp only [if_true] at h
    exact of_decide_eq_true h.2
  · intro hb
    subst hb
    simp only [Bool.false_eq_true, if_false] at h
    exact of_decide_eq_true h.2

theorem keepFor_before_intro (isR : Bool) (q : ℚ) (e : Event)
    (h1 : e.isRise = isR) (h2 : e.time < q) : keepFor isR true q e = true := by
  unfold keepFor
  simp [h1, h2]

theorem keepFor_after_intro (isR : Bool) (q : ℚ) (e : Event)
    (h1 : e.isRise = isR) (h2 : q ≤ e.time) : keepFor isR false q e = true := by
  unfold keepFor
  simp [h1, h2]

theorem pickNearer_some_left (q : ℚ) (A B : Option Event) (x : Event)
    (hA : A = some x) : ∃ b, pickNearer q A B = some b := by
  subst hA
  cases B with
  | none => exact ⟨x, rfl⟩
  | some ea =>
    simp only [pickNearer]
    split
    · exact ⟨ea, rfl⟩
    · exact ⟨x, rfl⟩

theorem pickNearer_some_right (q : ℚ) (A B : Option Event) (x : Event)
    (hB : B = some x) : ∃ b, pickNearer q A B = some b := by
  subst hB
  cases A with
  | none => exact ⟨x, rfl⟩
  | some eb =>
    simp only [pickNearer]
    split
    · exact ⟨x, rfl⟩
    · exact ⟨eb, rfl⟩

theorem slotFold_mem_of_init_none (q : ℚ) (keep : Event → Bool) (l : List Event) (b : Event)
    (h : slotFold q keep none l = some b) : b ∈ l ∧ keep b = true := by
  rcases (slotFold_some q keep l none b h).1 with hm | hbad
  · exact hm
  · exact Option.noConfusion hbad

theorem calculate_no_events (prev : SunRiseState) (alt refine az : Int → ℚ) (t : Int)
    (hev : eventsOf alt refine az t = []) :
    (calculate prev alt refine az t).hasRise = false ∧
    (calculate prev alt refine az t).hasSet = false := by
  constructor
  · rw [calculate_hasRise, hev]
    rfl
  · rw [calculate_hasSet, hev]
    rfl

/-! Theorems settling the claims. -/

/-- Claim C2: the isVisible result equals the sign test of the quantity
(altitude minus horizon constant) evaluated directly at queryTime itself
(sample offset 0 of the window), and it is independent of the refiner,
the azimuth sampler and the prior state, hence of whether any rise or set
event was found. -/
theorem isVisible_direct_sign_test (prev : SunRiseState) (alt refine az : Int → ℚ) (t : Int) :
    (calculate prev alt refine az t).isVisible = decide (0 < alt 0) ∧
    ∀ prev2 refine2 az2, (calculate prev2 alt refine2 az2 t).isVisible =
      (calculate prev alt refine az t).isVisible :=
  ⟨rfl, fun _ _ _ => rfl⟩

/-- Claim C6: the modelled calculate is deterministic and idempotent: its
result does not depend on the prior state of the object, and a second
invocation with identical arguments reproduces the first result exactly. -/
theorem calculate_deterministic_idempotent (p1 p2 : SunRiseState)
    (alt refine az : Int → ℚ) (t : Int) :
    calculate p1 alt refine az t = calculate p2 alt refine az t ∧
    calculate (calculate p1 alt refine az t) alt refine az t = calculate p1 alt refine az t :=
  ⟨rfl, rfl⟩

/-- Claim C8: julianDate is a pure total function of the Unix timestamp
returning the fractional number of days since the J2000.0 epoch (Unix
second 946728000): the epoch maps to 0, one Unix day advances it by
exactly 1, scaling back by 86400 seconds per day recovers the timestamp
exactly, and distinct timestamps give distinct values. -/
theorem julianDate_days_since_J2000 :
    julianDate 946728000 = 0 ∧
    (∀ t : Int, julianDate (t + 86400) = julianDate t + 1) ∧
    (∀ t : Int, julianDate t * 86400 + 946728000 = (t : ℚ)) ∧
    Function.Injective julianDate := by
  refine ⟨by norm_num [julianDate], ?_, ?_, ?_⟩
  · intro t
    unfold julianDate
    push_cast
    ring
  · intro t
    unfold julianDate
    ring
  · intro a b h
    unfold julianDate at h
    field_simp at h
    exact_mod_cast h

/-- Witness for claim C8: the injectivity hypothesis discharged at the
epoch itself. -/
theorem julianDate_days_since_J2000_check :
    julianDate 946728000 = julianDate 946728000 ∧ (946728000 : Int) = 946728000 :=
  ⟨rfl, julianDate_days_since_J2000.2.2.2 rfl⟩

/-- Claim C10: in the header variant of src/unnamed/part_000, every public
result field carries a default member initializer: times and azimuths 0,
flags false, so a freshly constructed object reports no events and the
sun not visible. -/
theorem defaultV0_all_fields_zero_false :
    defaultV0.queryTime = 0 ∧ defaultV0.riseTime = 0 ∧ defaultV0.setTime = 0 ∧
    defaultV0.riseAz = 0 ∧ defaultV0.setAz = 0 ∧ defaultV0.hasRise = false ∧
    defaultV0.hasSet = false ∧ defaultV0.isVisible = false :=
  ⟨rfl, rfl, rfl, rfl, rfl, rfl, rfl, rfl⟩

/-- Claim C3: when no altitude sign change occurs between any pair of
adjacent hourly samples of the window, calculate leaves hasRise and
hasSet false while isVisible is still the direct sign test at queryTime;
in particular under polar night, when every sample of the window is below
the horizon, both flags are false and isVisible is false. -/
theorem polar_no_events (prev : SunRiseState) (alt refine az : Int → ℚ) (t : Int) :
    ((∀ k ∈ hourIndices,
        ¬(alt k ≤ 0 ∧ 0 < alt (k + 1)) ∧ ¬(0 < alt k ∧ alt (k + 1) ≤ 0)) →
      (calculate prev alt refine az t).hasRise = false ∧
      (calculate prev alt refine az t).hasSet = false ∧
      (calculate prev alt refine az t).isVisible = decide (0 < alt 0)) ∧
    ((∀ k ∈ samplePoints, alt k < 0) →
      (calculate prev alt refine az t).hasRise = false ∧
      (calculate prev alt refine az t).hasSet = false ∧
      (calculate prev alt refine az t).isVisible = false) := by
  have key : (∀ k ∈ hourIndices,
      ¬(alt k ≤ 0 ∧ 0 < alt (k + 1)) ∧ ¬(0 < alt k ∧ alt (k + 1) ≤ 0)) →
      (calculate prev alt refine az t).hasRise = false ∧
      (calculate prev alt refine az t).hasSet = false := by
    intro h
    apply calculate_no_events
    unfold eventsOf
    rw [List.filterMap_eq_nil_iff]
    intro k hk
    unfold eventAt
    rw [if_neg (h k hk).1, if_neg (h k hk).2]
  constructor
  · intro h
    exact ⟨(key h).1, (key h).2, rfl⟩
  · intro h
    have hng : ∀ k ∈ hourIndices,
        ¬(alt k ≤ 0 ∧ 0 < alt (k + 1)) ∧ ¬(0 < alt k ∧ alt (k + 1) ≤ 0) := by
      intro k hk
      obtain ⟨hs, hs1⟩ := hourIndices_sub_samplePoints k hk
      constructor
      · intro hc
        exact absurd hc.2 (not_lt.mpr (le_of_lt (h (k + 1) hs1)))
      · intro hc
        exact absurd hc.1 (not_lt.mpr (le_of_lt (h k hs)))
    refine ⟨(key hng).1, (key hng).2, ?_⟩
    have h0 : ¬(0 < alt 0) := not_lt.mpr (le_of_lt (h 0 zero_mem_samplePoints))
    have : (calculate prev alt refine az t).isVisible = decide (0 < alt 0) := rfl
    rw [this]
    exact decide_eq_false h0

/-- Witness for claim C3: the everywhere-below-horizon profile yields no
events and the sun not visible. -/
theorem polar_no_events_check :
    (calculate st0 altNeg refHalf azW 0).hasRise = false ∧
    (calculate st0 altNeg refHalf azW 0).hasSet = false ∧
    (calculate st0 altNeg refHalf azW 0).isVisible = false :=
  (polar_no_events st0 altNeg refHalf azW 0).2 (by decide)

/-- Claim C9: timestamps are on the same UTC Unix-seconds scale as the
input: queryTime equals the t passed in, and whenever hasRise (resp.
hasSet) holds, riseTime (resp. setTime) lies within SR_WINDOW / 2 hours
of t, provided the refiner returns fractions in [0, 1). -/
theorem calculate_times_in_window (prev : SunRiseState) (alt refine az : Int → ℚ) (t : Int)
    (hr : ∀ k, 0 ≤ refine k ∧ refine k < 1) :
    (calculate prev alt refine az t).queryTime = t ∧
    ((calculate prev alt refine az t).hasRise = true →
      |(calculate prev alt refine az t).riseTime - (t : ℚ)| ≤ (SR_WINDOW : ℚ) / 2 * 3600) ∧
    ((calculate prev alt refine az t).hasSet = true →
      |(calculate prev alt refine az t).setTime - (t : ℚ)| ≤ (SR_WINDOW : ℚ) / 2 * 3600) := by
  have hW : (SR_WINDOW : ℚ) / 2 * 3600 = 86400 := by norm_num [SR_WINDOW]
  refine ⟨rfl, ?_, ?_⟩
  · intro hR
    rw [calculate_hasRise] at hR
    obtain ⟨e, he⟩ := Option.isSome_iff_exists.mp hR
    obtain ⟨hAB, _, _⟩ := pickNearer_spec _ _ _ _ he
    have hmem : e ∈ eventsOf alt refine az t := by
      rcases hAB with hA | hA
      · exact (slotFold_mem_of_init_none _ _ _ _ hA).1
      · exact (slotFold_mem_of_init_none _ _ _ _ hA).1
    have hb := eventsOf_time_bounds alt refine az t hr e hmem
    have hrt : (calculate prev alt refine az t).riseTime = e.time := by
      rw [calculate_riseTime, he]
      rfl
    rw [hrt, hW, abs_le]
    constructor <;> linarith [hb.1, hb.2]
  · intro hS
    rw [calculate_hasSet] at hS
    obtain ⟨e, he⟩ := Option.isSome_iff_exists.mp hS
    obtain ⟨hAB, _, _⟩ := pickNearer_spec _ _ _ _ he
    have hmem : e ∈ eventsOf alt refine az t := by
      rcases hAB with hA | hA
      · exact (slotFold_mem_of_init_none _ _ _ _ hA).1
      · exact (slotFold_mem_of_init_none _ _ _ _ hA).1
    have hb := eventsOf_time_bounds alt refine az t hr e hmem
    have hst : (calculate prev alt refine az t).setTime = e.time := by
      rw [calculate_setTime, he]
      rfl
    rw [hst, hW, abs_le]
    constructor <;> linarith [hb.1, hb.2]

theorem closer_none (q : ℚ) (e : Event) : closer q e none = some e := rfl

/-- Witness for claim C9: a profile with one rise before and one set
after t = 0, refined at the half hour; both reported times land inside
the window. -/
theorem calculate_times_in_window_check :
    (calculate st0 altS refHalf azW 0).queryTime = 0 ∧
    |(calculate st0 altS refHalf azW 0).riseTime - ((0 : Int) : ℚ)| ≤ (SR_WINDOW : ℚ) / 2 * 3600 ∧
    |(calculate st0 altS refHalf azW 0).setTime - ((0 : Int) : ℚ)| ≤ (SR_WINDOW : ℚ) / 2 * 3600 := by
  have hr : ∀ k : Int, 0 ≤ refHalf k ∧ refHalf k < 1 := by
    intro k
    constructor <;> norm_num [refHalf]
  have hev : eventsOf altS refHalf azW 0 =
      [⟨true, eventTime 0 (-5) (refHalf (-5)), azW (-5)⟩,
       ⟨false, eventTime 0 10 (refHalf 10), azW 10⟩] := rfl
  have h1 : eventTime 0 (-5) (refHalf (-5)) < ((0 : Int) : ℚ) := by
    norm_num [eventTime, refHalf]
  have h2 : ((0 : Int) : ℚ) ≤ eventTime 0 10 (refHalf 10) := by
    norm_num [eventTime, refHalf]
  have k1 : keepFor true true ((0 : Int) : ℚ)
      ⟨true, eventTime 0 (-5) (refHalf (-5)), azW (-5)⟩ = true := decide_eq_true h1
  have k2 : keepFor true false ((0 : Int) : ℚ)
      ⟨true, eventTime 0 (-5) (refHalf (-5)), azW (-5)⟩ = false :=
    decide_eq_false (not_le.mpr h1)
  have k3 : keepFor true true ((0 : Int) : ℚ)
      ⟨false, eventTime 0 10 (refHalf 10), azW 10⟩ = false := rfl
  have k4 : keepFor true false ((0 : Int) : ℚ)
      ⟨false, eventTime 0 10 (refHalf 10), azW 10⟩ = false := rfl
  have k5 : keepFor false true ((0 : Int) : ℚ)
      ⟨true, eventTime 0 (-5) (refHalf (-5)), azW (-5)⟩ = false := rfl
  have k6 : keepFor false false ((0 : Int) : ℚ)
      ⟨true, eventTime 0 (-5) (refHalf (-5)), azW (-5)⟩ = false := rfl
  have k7 : keepFor false true ((0 : Int) : ℚ)
      ⟨false, eventTime 0 10 (refHalf 10), azW 10⟩ = false :=
    decide_eq_false (not_lt.mpr h2)
  have k8 : keepFor false false ((0 : Int) : ℚ)
      ⟨false, eventTime 0 10 (refHalf 10), azW 10⟩ = true := decide_eq_true h2
  have hA : slotFold ((0 : Int) : ℚ) (keepFor true true ((0 : Int) : ℚ)) none
      (eventsOf altS refHalf azW 0) =
      some ⟨true, eventTime 0 (-5) (refHalf (-5)), azW (-5)⟩ := by
    rw [hev, slotFold_cons, k1, if_pos rfl, closer_none, slotFold_cons, k3,
      if_neg Bool.false_ne_true, slotFold_nil]
  have hB : slotFold ((0 : Int) : ℚ) (keepFor true false ((0 : Int) : ℚ)) none
      (eventsOf altS refHalf azW 0) = none := by
    rw [hev, slotFold_cons, k2, if_neg Bool.false_ne_true, slotFold_cons, k4,
      if_neg Bool.false_ne_true, slotFold_nil]
  have hC : slotFold ((0 : Int) : ℚ) (keepFor false true ((0 : Int) : ℚ)) none
      (eventsOf altS refHalf azW 0) = none := by
    rw [hev, slotFold_cons, k5, if_neg Bool.false_ne_true, slotFold_cons, k7,
      if_neg Bool.false_ne_true, slotFold_nil]
  have hD : slotFold ((0 : Int) : ℚ) (keepFor false false ((0 : Int) : ℚ)) none
      (eventsOf altS refHalf azW 0) =
      some ⟨false, eventTime 0 10 (refHalf 10), azW 10⟩ := by
    rw [hev, slotFold_cons, k6, if_neg Bool.false_ne_true, slotFold_cons, k8,
      if_pos rfl, closer_none, slotFold_nil]
  have hRise : (calculate st0 altS refHalf azW 0).hasRise = true := by
    rw [calculate_hasRise, hA, hB]
    rfl
  have hSet : (calculate st0 altS refHalf azW 0).hasSet = true := by
    rw [calculate_hasSet, hC, hD]
    rfl
  have thm := calculate_times_in_window st0 altS refHalf azW 0 hr
  exact ⟨thm.1, thm.2.1 hRise, thm.2.2 hSet⟩

/-- Claim C1: the scan keeps exactly one best candidate per type per side
of queryTime, namely the detected crossing whose time is closest to
queryTime on that side, overwriting any farther one; consequently the
reported riseTime or setTime of a type is the time of the detected event
of that type nearest to queryTime. -/
theorem nearest_candidate_per_side (prev : SunRiseState) (alt refine az : Int → ℚ)
    (t : Int) (isR before : Bool) (e : Event)
    (he : e ∈ eventsOf alt refine az t)
    (hk : keepFor isR before (t : ℚ) e = true) :
    (∃ b, slotOf (scanSlots (eventsOf alt refine az t) (t : ℚ)) isR before = some b ∧
      b ∈ eventsOf alt refine az t ∧ keepFor isR before (t : ℚ) b = true ∧
      ∀ e2 ∈ eventsOf alt refine az t, keepFor isR before (t : ℚ) e2 = true →
        |(t : ℚ) - b.time| ≤ |(t : ℚ) - e2.time|) ∧
    (reportedHas (calculate prev alt refine az t) isR = true ∧
      ∃ b ∈ eventsOf alt refine az t, b.isRise = isR ∧
        reportedTime (calculate prev alt refine az t) isR = b.time ∧
        ∀ e2 ∈ eventsOf alt refine az t, e2.isRise = isR →
          |(t : ℚ) - b.time| ≤ |(t : ℚ) - e2.time|) := by
  have part1 : ∃ b,
      slotFold (t : ℚ) (keepFor isR before (t : ℚ)) none (eventsOf alt refine az t) = some b ∧
      b ∈ eventsOf alt refine az t ∧ keepFor isR before (t : ℚ) b = true ∧
      ∀ e2 ∈ eventsOf alt refine az t, keepFor isR before (t : ℚ) e2 = true →
        |(t : ℚ) - b.time| ≤ |(t : ℚ) - e2.time| := by
    cases hslot : slotFold (t : ℚ) (keepFor isR before (t : ℚ)) none (eventsOf alt refine az t) with
    | none =>
      have hfalse := (slotFold_none _ _ _ none hslot).2 e he
      rw [hk] at hfalse
      exact absurd hfalse (by simp)
    | some b =>
      have hm := slotFold_mem_of_init_none _ _ _ _ hslot
      have hmin := (slotFold_some _ _ _ none b hslot).2.1
      exact ⟨b, rfl, hm.1, hm.2, hmin⟩
  obtain ⟨b, hb, hbm, hbk, hbmin⟩ := part1
  constructor
  · rw [slotOf_scanSlots]
    exact ⟨b, hb, hbm, hbk, hbmin⟩
  · have hpick : ∃ c, pickNearer (t : ℚ)
        (slotFold (t : ℚ) (keepFor isR true (t : ℚ)) none (eventsOf alt refine az t))
        (slotFold (t : ℚ) (keepFor isR false (t : ℚ)) none (eventsOf alt refine az t)) =
          some c := by
      cases before with
      | true => exact pickNearer_some_left _ _ _ b hb
      | false => exact pickNearer_some_right _ _ _ b hb
    obtain ⟨c, hc⟩ := hpick
    obtain ⟨hcAB, hcA, hcB⟩ := pickNearer_spec _ _ _ _ hc
    have hcm : c ∈ eventsOf alt refine az t ∧ c.isRise = isR := by
      rcases hcAB with hA | hA
      · have h := slotFold_mem_of_init_none _ _ _ _ hA
        exact ⟨h.1, (keepFor_elim _ _ _ _ h.2).1⟩
      · have h := slotFold_mem_of_init_none _ _ _ _ hA
        exact ⟨h.1, (keepFor_elim _ _ _ _ h.2).1⟩
    constructor
    · rw [(calculate_reported prev alt refine az t isR).1, hc]
      rfl
    · refine ⟨c, hcm.1, hcm.2, ?_, ?_⟩
      · rw [(calculate_reported prev alt refine az t isR).2, hc]
        rfl
      · intro e2 he2 hkind2
        rcases lt_or_le e2.time (t : ℚ) with h2 | h2
        · have hk2 := keepFor_before_intro isR (t : ℚ) e2 hkind2 h2
          cases hA : slotFold (t : ℚ) (keepFor isR true (t : ℚ)) none
              (eventsOf alt refine az t) with
          | none =>
            have hfalse := (slotFold_none _ _ _ none hA).2 e2 he2
            rw [hk2] at hfalse
            exact absurd hfalse (by simp)
          | some a =>
            exact le_trans (hcA a hA) ((slotFold_some _ _ _ none a hA).2.1 e2 he2 hk2)
        · have hk2 := keepFor_after_intro isR (t : ℚ) e2 hkind2 h2
          cases hA : slotFold (t : ℚ) (keepFor isR false (t : ℚ)) none
              (eventsOf alt refine az t) with
          | none =>
            have hfalse := (slotFold_none _ _ _ none hA).2 e2 he2
            rw [hk2] at hfalse
            exact absurd hfalse (by simp)
          | some a =>
            exact le_trans (hcB a hA) ((slotFold_some _ _ _ none a hA).2.1 e2 he2 hk2)

/-- Witness for claim C1: the altW profile has two rises before t = 0
(at hours -20 and -5); the farther rise at hour -20 is overwritten and
the slot and the reported riseTime hold the nearer one. -/
theorem nearest_candidate_per_side_check :
    (∃ b, slotOf (scanSlots (eventsOf altW refHalf azW 0) ((0 : Int) : ℚ)) true true = some b ∧
      b ∈ eventsOf altW refHalf azW 0 ∧ keepFor true true ((0 : Int) : ℚ) b = true ∧
      ∀ e2 ∈ eventsOf altW refHalf azW 0, keepFor true true ((0 : Int) : ℚ) e2 = true →
        |((0 : Int) : ℚ) - b.time| ≤ |((0 : Int) : ℚ) - e2.time|) ∧
    (reportedHas (calculate st0 altW refHalf azW 0) true = true ∧
      ∃ b ∈ eventsOf altW refHalf azW 0, b.isRise = true ∧
        reportedTime (calculate st0 altW refHalf azW 0) true = b.time ∧
        ∀ e2 ∈ eventsOf altW refHalf azW 0, e2.isRise = true →
          |((0 : Int) : ℚ) - b.time| ≤ |((0 : Int) : ℚ) - e2.time|) := by
  have hlt : eventTime 0 (-20) (refHalf (-20)) < ((0 : Int) : ℚ) := by
    norm_num [eventTime, refHalf]
  have hat : eventAt altW refHalf azW 0 (-20) =
      some ⟨true, eventTime 0 (-20) (refHalf (-20)), azW (-20)⟩ := rfl
  have hmem : (⟨true, eventTime 0 (-20) (refHalf (-20)), azW (-20)⟩ : Event) ∈
      eventsOf altW refHalf azW 0 :=
    (mem_eventsOf altW refHalf azW 0 _).mpr ⟨-20, by decide, hat⟩
  exact nearest_candidate_per_side st0 altW refHalf azW 0 true true
    ⟨true, eventTime 0 (-20) (refHalf (-20)), azW (-20)⟩ hmem (decide_eq_true hlt)

/-- Claim C4: the per-invocation cost is fixed and bounded: the solar
position model is consulted at exactly SR_WINDOW + 1 hourly sample
offsets of the window centered on queryTime, the result of calculate
depends on the samplers only through their values at those boundaries
(the refiner and azimuth only at the SR_WINDOW crossing hours, one
parabolic correction per detected crossing), and at most SR_WINDOW
crossings are detected. -/
theorem fixed_evaluation_cost (t : Int) :
    (sunEvalOffsets t).length = SR_WINDOW + 1 ∧
    samplePoints.length = SR_WINDOW + 1 ∧
    (∀ i, i < SR_WINDOW + 1 →
      (sunEvalOffsets t).getD i 0 = julianDate t + ((i : ℚ) - 24) / 24) ∧
    (∀ alt refine az : Int → ℚ, (eventsOf alt refine az t).length ≤ SR_WINDOW) ∧
    (∀ (prev : SunRiseState) (alt refine az alt2 refine2 az2 : Int → ℚ),
      (∀ k ∈ samplePoints, alt k = alt2 k) →
      (∀ k ∈ hourIndices, refine k = refine2 k ∧ az k = az2 k) →
      calculate prev alt refine az t = calculate prev alt2 refine2 az2 t) := by
  refine ⟨?_, ?_, ?_, ?_, ?_⟩
  · unfold sunEvalOffsets
    rw [List.length_map, List.length_range]
  · unfold samplePoints
    rw [List.length_map, List.length_range]
  · intro i hi
    unfold sunEvalOffsets
    rw [List.getD_eq_getElem?_getD, List.getElem?_map, List.getElem?_range hi]
    rfl
  · intro alt refine az
    calc (eventsOf alt refine az t).length ≤ hourIndices.length :=
        List.length_filterMap_le _ _
      _ = SR_WINDOW := by
        unfold hourIndices
        rw [List.length_map, List.length_range]
  · intro prev alt refine az alt2 refine2 az2 ha hrf
    have hev := eventsOf_congr alt refine az alt2 refine2 az2 t ha hrf
    have h0 : alt 0 = alt2 0 := ha 0 zero_mem_samplePoints
    simp only [calculate]
    rw [hev, h0]

/-- Witness for claim C4: the boundary formula at sample index 0, and
extensionality on a pair of profiles agreeing inside the window. -/
theorem fixed_evaluation_cost_check :
    (sunEvalOffsets 0).getD 0 0 = julianDate 0 + (((0 : ℕ) : ℚ) - 24) / 24 ∧
    calculate st0 altS refHalf azW 0 = calculate st0 altSOut refHalf azW 0 :=
  ⟨(fixed_evaluation_cost 0).2.2.1 0 (by norm_num [SR_WINDOW]),
   (fixed_evaluation_cost 0).2.2.2.2 st0 altS refHalf azW altSOut refHalf azW
     (by decide) (fun k _ => ⟨rfl, rfl⟩)⟩

/-- Claim C5: for an hour interval whose endpoint altitudes change sign
exactly once (negative to positive or positive to negative), any
zero-crossing fraction selected by the quadratic interpolation refiner
(a root of the fitted parabola nearest the sample interval) lies in
[0, 1), so the refined event falls inside the hour of the detected
change. -/
theorem crossing_fraction_in_unit (f0 f1 f2 : ℚ) (p : ℝ)
    (hs : (f0 < 0 ∧ 0 < f2) ∨ (0 < f0 ∧ f2 < 0))
    (hp : isCrossingFraction f0 f1 f2 p) : 0 ≤ p ∧ p < 1 := by
  obtain ⟨hroot, hmin⟩ := hp
  have hg0 : fitAt f0 f1 f2 0 = (f0 : ℝ) := by
    unfold fitAt
    ring
  have hg1 : fitAt f0 f1 f2 1 = (f2 : ℝ) := by
    unfold fitAt
    push_cast
    ring
  have hcont : ContinuousOn (fitAt f0 f1 f2) (Set.Icc 0 1) := by
    apply Continuous.continuousOn
    unfold fitAt
    fun_prop
  have hex : ∃ r ∈ Set.Icc (0 : ℝ) 1, fitAt f0 f1 f2 r = 0 := by
    rcases hs with ⟨ha, hb⟩ | ⟨ha, hb⟩
    · have hsub := intermediate_value_Icc (by norm_num : (0 : ℝ) ≤ 1) hcont
      have h0m : (0 : ℝ) ∈ Set.Icc (fitAt f0 f1 f2 0) (fitAt f0 f1 f2 1) := by
        rw [hg0, hg1]
        constructor
        · exact le_of_lt (by exact_mod_cast ha)
        · exact le_of_lt (by exact_mod_cast hb)
      obtain ⟨r, hr, hfr⟩ := hsub h0m
      exact ⟨r, hr, hfr⟩
    · have hsub := intermediate_value_Icc' (by norm_num : (0 : ℝ) ≤ 1) hcont
      have h0m : (0 : ℝ) ∈ Set.Icc (fitAt f0 f1 f2 1) (fitAt f0 f1 f2 0) := by
        rw [hg0, hg1]
        constructor
        · exact le_of_lt (by exact_mod_cast hb)
        · exact le_of_lt (by exact_mod_cast ha)
      obtain ⟨r, hr, hfr⟩ := hsub h0m
      exact ⟨r, hr, hfr⟩
  obtain ⟨r, hr01, hfr⟩ := hex
  have hdr : Metric.infDist r (Set.Icc (0 : ℝ) 1) = 0 := Metric.infDist_zero_of_mem hr01
  have hdp : Metric.infDist p (Set.Icc (0 : ℝ) 1) = 0 := by
    refine le_antisymm ?_ Metric.infDist_nonneg
    exact le_trans (hmin r hfr) (le_of_eq hdr)
  have hpmem : p ∈ Set.Icc (0 : ℝ) 1 := by
    have hne : (Set.Icc (0 : ℝ) 1).Nonempty := ⟨0, by norm_num⟩
    have hcl := (Metric.mem_closure_iff_infDist_zero hne).mpr hdp
    rwa [IsClosed.closure_eq isClosed_Icc] at hcl
  have hp1 : p ≠ 1 := by
    intro h
    rw [h, hg1] at hroot
    rcases hs with ⟨_, hb⟩ | ⟨_, hb⟩
    · exact absurd hroot (ne_of_gt (by exact_mod_cast hb))
    · exact absurd hroot (ne_of_lt (by exact_mod_cast hb))
  exact ⟨hpmem.1, lt_of_le_of_ne hpmem.2 hp1⟩

/-- Witness for claim C5: the degenerate parabola through samples
-1, 0, 1 is linear with unique root one half, which is selected and lies
in the unit interval. -/
theorem crossing_fraction_in_unit_check : 0 ≤ ((1 : ℝ) / 2) ∧ ((1 : ℝ) / 2) < 1 := by
  have hroot : fitAt (-1) 0 1 ((1 : ℝ) / 2) = 0 := by
    unfold fitAt
    push_cast
    ring
  have hmin : ∀ r : ℝ, fitAt (-1) 0 1 r = 0 →
      Metric.infDist ((1 : ℝ) / 2) (Set.Icc 0 1) ≤ Metric.infDist r (Set.Icc 0 1) := by
    intro r hr
    unfold fitAt at hr
    push_cast at hr
    have hr2 : r = (1 : ℝ) / 2 := by nlinarith [hr]
    rw [hr2]
  exact crossing_fraction_in_unit (-1) 0 1 ((1 : ℝ) / 2)
    (Or.inl ⟨by norm_num, by norm_num⟩) ⟨hroot, hmin⟩

end SunRiseSpec
